import Mathlib

/-!
Verification of the sparse-polynomial arithmetic library `PolynomialSolver.py`.

The Python class `Polynomial` stores a singly-linked list of `(coeff, degree)`
terms in strictly descending degree order, with no zero coefficients and no
duplicate degrees.  Coefficients are Python `int` or `fractions.Fraction`
values; both are exact rationals, so the embedding represents every
coefficient as `ℚ` and a polynomial as the list of its term nodes read from
`_head`.  Degrees are non-negative integers, represented as `ℕ`.

The two source loops whose termination is not structural (the two-pointer
merge of `__add__` and the long-division loop of `__divmod__`) are embedded
with an explicit iteration-count argument so that every definition reduces in
the kernel; `add` passes the combined length of its operands (the merge
consumes one node per iteration) and `__divmod__`'s loop receives
`degree r + 1` (each iteration strictly lowers the remainder's degree, which
is proved below).
-/

namespace PolySolver

/-- Term list of a `Polynomial`: the `(coeff, degree)` pairs from `_head`. -/
abbrev Poly := List (ℚ × ℕ)

/-- Errors raised by the division operations: `ZeroDivisionError` in
`__divmod__` and `ValueError` (non-exact division) in `__truediv__`. -/
inductive PolyError where
  | divisionByZero
  | nonExactDivision
deriving DecidableEq

instance {ε α : Type} [DecidableEq ε] [DecidableEq α] : DecidableEq (Except ε α)
  | Except.error e, Except.error f =>
    if h : e = f then Decidable.isTrue (by rw [h])
    else Decidable.isFalse (fun c => Except.noConfusion c fun he => h he)
  | Except.error _, Except.ok _ => Decidable.isFalse (fun c => Except.noConfusion c)
  | Except.ok _, Except.error _ => Decidable.isFalse (fun c => Except.noConfusion c)
  | Except.ok a, Except.ok b =>
    if h : a = b then Decidable.isTrue (by rw [h])
    else Decidable.isFalse (fun c => Except.noConfusion c fun he => h he)

/-- Walk of `_insert_term_invariant` past the zero-coefficient guard: skip
nodes of larger degree, merge an equal degree (dropping the node if the merged
coefficient is zero), otherwise link the new node in before the first node of
smaller degree (or at the end). -/
def insertGo (c : ℚ) (d : ℕ) : Poly → Poly
  | [] => [(c, d)]
  | (c', d') :: rest =>
    if d' < d then (c, d) :: (c', d') :: rest
    else if d' = d then (if c' + c = 0 then rest else (c' + c, d') :: rest)
    else (c', d') :: insertGo c d rest

/-- Model of `Polynomial._insert_term_invariant`. -/
def insert_term_invariant (c : ℚ) (d : ℕ) (p : Poly) : Poly :=
  if c = 0 then p else insertGo c d p

/-- Model of `Polynomial.is_zero` (and `is_empty`): `_head is None`. -/
def is_zero (p : Poly) : Bool := p.isEmpty

/-- Model of `Polynomial.degree`: head degree, or `0` when empty. -/
def degree : Poly → ℕ
  | [] => 0
  | t :: _ => t.2

/-- Model of `Polynomial._leading_term`: head term, or `(0, 0)` when empty. -/
def leading_term : Poly → ℚ × ℕ
  | [] => (0, 0)
  | t :: _ => t

/-- Shared shape of the source's term-copying loops ("walk the nodes, insert a
transformed term into the polynomial being built"): used by the constructor,
`__neg__`, `_mul_monomial`, `_as_fraction_poly`, the inner loop of `__mul__`,
the drain loops of `__add__` and the remainder initialisation of
`__divmod__`, each with its own transformation `f`. -/
def insertMapped (f : ℚ × ℕ → ℚ × ℕ) : List (ℚ × ℕ) → Poly → Poly
  | [], res => res
  | t :: ts, res => insertMapped f ts (insert_term_invariant (f t).1 (f t).2 res)

/-- Model of `Polynomial.__init__` / `Polynomial.from_tuples`: insert each
given pair in order into an empty polynomial. -/
def from_tuples (l : List (ℚ × ℕ)) : Poly := insertMapped (fun t => t) l []

/-- Two-pointer merge loop of `Polynomial.__add__`: while both lists are
non-empty emit the larger degree (or the merged coefficient when equal, kept
only if non-zero), then drain the surviving list.  The first argument counts
remaining iterations; every call in `add` passes the combined length, which
the merge can never exhaust early since each iteration consumes a node. -/
def addMergeFuel : ℕ → List (ℚ × ℕ) → List (ℚ × ℕ) → Poly → Poly
  | 0, as, bs, res => insertMapped (fun t => t) bs (insertMapped (fun t => t) as res)
  | _ + 1, [], bs, res => insertMapped (fun t => t) bs res
  | _ + 1, a :: as, [], res => insertMapped (fun t => t) (a :: as) res
  | n + 1, (ca, da) :: as, (cb, db) :: bs, res =>
    if db < da then addMergeFuel n as ((cb, db) :: bs) (insert_term_invariant ca da res)
    else if da < db then addMergeFuel n ((ca, da) :: as) bs (insert_term_invariant cb db res)
    else addMergeFuel n as bs (if ca + cb = 0 then res else insert_term_invariant (ca + cb) da res)

/-- Model of `Polynomial.__add__`. -/
def add (p q : Poly) : Poly := addMergeFuel (p.length + q.length) p q []

/-- Model of `Polynomial.__neg__`: insert every term with its sign flipped. -/
def neg (p : Poly) : Poly := insertMapped (fun t => (-t.1, t.2)) p []

/-- Model of `Polynomial.__sub__`: `p + (-q)`. -/
def sub (p q : Poly) : Poly := add p (neg q)

/-- Outer loop of `Polynomial.__mul__`: for each term of the left operand,
insert its products with every term of the right operand. -/
def mulAux : List (ℚ × ℕ) → Poly → Poly → Poly
  | [], _, res => res
  | a :: as, q, res => mulAux as q (insertMapped (fun t => (a.1 * t.1, a.2 + t.2)) q res)

/-- Model of `Polynomial.__mul__`. -/
def mul (p q : Poly) : Poly := mulAux p q []

/-- Model of `Polynomial._mul_monomial`: multiply by `c * x^d` termwise. -/
def mul_monomial (p : Poly) (c : ℚ) (d : ℕ) : Poly :=
  insertMapped (fun t => (t.1 * c, t.2 + d)) p []

/-- Model of `Polynomial._as_fraction_poly`: rebuild the polynomial term by
term (the `int → Fraction` promotion is the identity on `ℚ`). -/
def as_fraction_poly (p : Poly) : Poly := insertMapped (fun t => t) p []

/-- Long-division loop of `Polynomial.__divmod__`: while the remainder is
non-zero and its degree reaches the divisor's, cancel the remainder's leading
term against the divisor's.  The first argument counts remaining iterations;
`divmod` passes `degree r + 1`, which is proved sufficient below. -/
def divLoop : ℕ → Poly → ℚ → ℕ → Poly → Poly → Poly × Poly
  | 0, _, _, _, q, r => (q, r)
  | n + 1, divisor, dlc, dld, q, r =>
    if is_zero r = false ∧ dld ≤ degree r then
      divLoop n divisor dlc dld
        (insert_term_invariant ((leading_term r).1 / dlc) ((leading_term r).2 - dld) q)
        (sub r (mul_monomial divisor ((leading_term r).1 / dlc) ((leading_term r).2 - dld)))
    else (q, r)

/-- Model of `Polynomial.__divmod__`: rejects the zero divisor with
`ZeroDivisionError`, promotes both operands to rationals, initialises the
remainder as a copy of the dividend and runs the long-division loop. -/
def divmod (a b : Poly) : Except PolyError (Poly × Poly) :=
  if is_zero b then Except.error PolyError.divisionByZero
  else
    let dividend := as_fraction_poly a
    let divisor := as_fraction_poly b
    let r := insertMapped (fun t => t) dividend []
    let dl := leading_term divisor
    Except.ok (divLoop (degree r + 1) divisor dl.1 dl.2 [] r)

/-- Model of `Polynomial.__truediv__`: quotient of `divmod` when the remainder
is zero, `ValueError` (non-exact division) otherwise; the zero-divisor error
of `divmod` propagates. -/
def truediv (a b : Poly) : Except PolyError Poly :=
  match divmod a b with
  | Except.error e => Except.error e
  | Except.ok (q, r) => if is_zero r then Except.ok q else Except.error PolyError.nonExactDivision

/-- Rendering of one coefficient magnitude, as Python prints an `int` or a
`Fraction`: plain numerator when the denominator is `1`, `num/den` otherwise. -/
def ratMagStr (q : ℚ) : String :=
  if q.den = 1 then toString q.num else toString q.num ++ "/" ++ toString q.den

/-- Per-term sign and magnitude strings built by the first loop of
`Polynomial.__str__`. -/
def termStr (c : ℚ) (d : ℕ) : String × String :=
  (if 0 < c then "+" else "-",
   if d = 0 then ratMagStr |c|
   else if d = 1 then (if |c| = 1 then "x" else ratMagStr |c| ++ "x")
   else (if |c| = 1 then "x^" ++ toString d else ratMagStr |c| ++ "x^" ++ toString d))

/-- Joining loop of `Polynomial.__str__`: append `" <sign> <term>"` for every
part after the first. -/
def joinParts (head : String) : List (String × String) → String
  | [] => head
  | (s, t) :: rest => joinParts (head ++ " " ++ s ++ " " ++ t) rest

/-- Model of `Polynomial.__str__`. -/
def polyStr : Poly → String
  | [] => "0"
  | t :: rest =>
    joinParts
      (if (termStr t.1 t.2).1 = "+" then (termStr t.1 t.2).2 else "- " ++ (termStr t.1 t.2).2)
      (rest.map fun u => termStr u.1 u.2)

/-- Walk of `_insert_term_invariant` together with the `_size` updates the
source performs alongside it (`+1` on the two link-in paths, `-1` when a
merged coefficient cancels, unchanged on a non-cancelling merge). -/
def insertGoSized (c : ℚ) (d : ℕ) : Poly → ℤ → Poly × ℤ
  | [], s => ([(c, d)], s + 1)
  | (c', d') :: rest, s =>
    if d' < d then ((c, d) :: (c', d') :: rest, s + 1)
    else if d' = d then (if c' + c = 0 then (rest, s - 1) else ((c' + c, d') :: rest, s))
    else
      let pr := insertGoSized c d rest s
      ((c', d') :: pr.1, pr.2)

/-- Model of `_insert_term_invariant` acting on the `(_head, _size)` pair. -/
def insert_sized (c : ℚ) (d : ℕ) (st : Poly × ℤ) : Poly × ℤ :=
  if c = 0 then st else insertGoSized c d st.1 st.2

/-- State of a freshly constructed `Polynomial` after inserting the given
pairs in order, tracking `_size` alongside the term list (every public
operation of the source builds its result exactly this way: a fresh instance
with `_head = None`, `_size = 0`, mutated only through
`_insert_term_invariant`). -/
def build_sized (l : List (ℚ × ℕ)) : Poly × ℤ :=
  l.foldl (fun st t => insert_sized t.1 t.2 st) ([], 0)

/-! ## Semantics: coefficient functions and the representation invariant -/

/-- Sum of `g degree coeff` over the term nodes of `p`. -/
def S (g : ℕ → ℚ → ℚ) (p : Poly) : ℚ := (p.map (fun t => g t.2 t.1)).sum

/-- Coefficient of `x^e` denoted by the term list `p`. -/
def coeff (p : Poly) (e : ℕ) : ℚ := S (fun d x => if d = e then x else 0) p

/-- Representation invariant of the source class: strictly descending degrees
(hence no duplicates) and no stored zero coefficient. -/
def WF (p : Poly) : Prop :=
  List.Pairwise (fun a b : ℚ × ℕ => b.2 < a.2) p ∧ ∀ t ∈ p, t.1 ≠ 0

instance : DecidablePred WF := fun p =>
  inferInstanceAs (Decidable (List.Pairwise _ p ∧ ∀ t ∈ p, t.1 ≠ 0))

/-! ## Basic lemmas about the term-sum semantics -/

theorem S_nil (g : ℕ → ℚ → ℚ) : S g [] = 0 := rfl

theorem S_cons (g : ℕ → ℚ → ℚ) (t : ℚ × ℕ) (p : Poly) :
    S g (t :: p) = g t.2 t.1 + S g p := by
  simp [S]

/-- Additive weight functions vanish at `0`. -/
theorem g_zero {g : ℕ → ℚ → ℚ} (hadd : ∀ e x y, g e (x + y) = g e x + g e y) (e : ℕ) :
    g e 0 = 0 := by
  have h := hadd e 0 0
  rw [add_zero] at h
  exact (self_eq_add_left.mp h)

/-- Effect of the insertion walk on any additive term sum: it adds `g d c`. -/
theorem S_insertGo {g : ℕ → ℚ → ℚ} (hadd : ∀ e x y, g e (x + y) = g e x + g e y)
    (c : ℚ) (d : ℕ) : ∀ p : Poly, S g (insertGo c d p) = S g p + g d c := by
  intro p
  induction p with
  | nil => simp [insertGo, S_cons, S_nil]
  | cons hd tl ih =>
    obtain ⟨c', d'⟩ := hd
    by_cases h1 : d' < d
    · simp [insertGo, h1, S_cons]
      ring
    · by_cases h2 : d' = d
      · subst h2
        by_cases h3 : c' + c = 0
        · have hz : g d' c' + g d' c = 0 := by
            rw [← hadd, h3, g_zero hadd]
          simp [insertGo, h1, h3, S_cons]
          linarith [hz]
        · simp [insertGo, h1, h3, S_cons, hadd]
          ring
      · simp [insertGo, h1, h2, S_cons, ih]
        ring

/-- Effect of `_insert_term_invariant` on any additive term sum. -/
theorem S_insert {g : ℕ → ℚ → ℚ} (hadd : ∀ e x y, g e (x + y) = g e x + g e y)
    (c : ℚ) (d : ℕ) (p : Poly) :
    S g (insert_term_invariant c d p) = S g p + g d c := by
  unfold insert_term_invariant
  by_cases hc : c = 0
  · simp [hc, g_zero hadd]
  · simp [hc, S_insertGo hadd]

/-- Effect of a term-copying loop on any additive term sum. -/
theorem S_insertMapped {g : ℕ → ℚ → ℚ} (hadd : ∀ e x y, g e (x + y) = g e x + g e y)
    (f : ℚ × ℕ → ℚ × ℕ) :
    ∀ (ts : List (ℚ × ℕ)) (res : Poly),
      S g (insertMapped f ts res) = S g res + ((ts.map fun t => g (f t).2 (f t).1).sum) := by
  intro ts
  induction ts with
  | nil => simp [insertMapped]
  | cons t ts ih =>
    intro res
    rw [insertMapped, ih, S_insert hadd]
    simp
    ring

/-- Membership after the insertion walk: every element was already present or
carries the inserted degree. -/
theorem mem_insertGo {c : ℚ} {d : ℕ} :
    ∀ {p : Poly} {y : ℚ × ℕ}, y ∈ insertGo c d p → y ∈ p ∨ y.2 = d := by
  intro p
  induction p with
  | nil =>
    intro y hy
    simp [insertGo] at hy
    simp [hy]
  | cons hd tl ih =>
    obtain ⟨c', d'⟩ := hd
    intro y hy
    by_cases h1 : d' < d
    · simp [insertGo, h1] at hy
      rcases hy with h | h | h
      · right; simp [h]
      · left; simp [h]
      · left; simp [h]
    · by_cases h2 : d' = d
      · subst h2
        by_cases h3 : c' + c = 0
        · simp [insertGo, h1, h3] at hy
          left; simp [hy]
        · simp [insertGo, h1, h3] at hy
          rcases hy with h | h
          · right; simp [h]
          · left; simp [h]
      · simp [insertGo, h1, h2] at hy
        rcases hy with h | h
        · left; simp [h]
        · rcases ih h with h' | h'
          · left; simp [h']
          · right; exact h'

/-- The insertion walk preserves the representation invariant when the
inserted coefficient is non-zero. -/
theorem WF_insertGo {c : ℚ} {d : ℕ} (hc : c ≠ 0) :
    ∀ {p : Poly}, WF p → WF (insertGo c d p) := by
  intro p
  induction p with
  | nil =>
    intro _
    refine ⟨?_, ?_⟩
    · simp [insertGo]
    · intro t ht
      simp [insertGo] at ht
      simp [ht, hc]
  | cons hd tl ih =>
    obtain ⟨c', d'⟩ := hd
    intro hwf
    obtain ⟨hpw, hnz⟩ := hwf
    rw [List.pairwise_cons] at hpw
    by_cases h1 : d' < d
    · rw [show insertGo c d ((c', d') :: tl) = (c, d) :: (c', d') :: tl by
        simp [insertGo, h1]]
      refine ⟨?_, ?_⟩
      · rw [List.pairwise_cons]
        constructor
        · intro t ht
          rcases List.mem_cons.mp ht with h | h
          · simp [h, h1]
          · exact lt_trans (hpw.1 t h) h1
        · rw [List.pairwise_cons]
          exact hpw
      · intro t ht
        rcases List.mem_cons.mp ht with h | h
        · simp [h, hc]
        · exact hnz t (by simpa using h)
    · by_cases h2 : d' = d
      · subst h2
        by_cases h3 : c' + c = 0
        · rw [show insertGo c d' ((c', d') :: tl) = tl by simp [insertGo, h1, h3]]
          exact ⟨hpw.2, fun t ht => hnz t (List.mem_cons_of_mem _ ht)⟩
        · rw [show insertGo c d' ((c', d') :: tl) = (c' + c, d') :: tl by
            simp [insertGo, h1, h3]]
          refine ⟨?_, ?_⟩
          · rw [List.pairwise_cons]
            exact hpw
          · intro t ht
            rcases List.mem_cons.mp ht with h | h
            · simp [h, h3]
            · exact hnz t (List.mem_cons_of_mem _ h)
      · have hd' : d < d' := by omega
        rw [show insertGo c d ((c', d') :: tl) = (c', d') :: insertGo c d tl by
          simp [insertGo, h1, h2]]
        have htl : WF tl := ⟨hpw.2, fun t ht => hnz t (List.mem_cons_of_mem _ ht)⟩
        obtain ⟨ipw, inz⟩ := ih htl
        refine ⟨?_, ?_⟩
        · rw [List.pairwise_cons]
          refine ⟨?_, ipw⟩
          intro t ht
          rcases mem_insertGo ht with h | h
          · exact hpw.1 t h
          · simpa [h] using hd'
        · intro t ht
          rcases List.mem_cons.mp ht with h | h
          · exact h ▸ hnz (c', d') (List.mem_cons_self _ _)
          · exact inz t h

/-- `_insert_term_invariant` preserves the representation invariant. -/
theorem WF_insert {c : ℚ} {d : ℕ} {p : Poly} (h : WF p) :
    WF (insert_term_invariant c d p) := by
  unfold insert_term_invariant
  by_cases hc : c = 0
  · simpa [hc]
  · simpa [hc] using WF_insertGo hc h

/-- Term-copying loops preserve the representation invariant. -/
theorem WF_insertMapped (f : ℚ × ℕ → ℚ × ℕ) :
    ∀ (ts : List (ℚ × ℕ)) {res : Poly}, WF res → WF (insertMapped f ts res) := by
  intro ts
  induction ts with
  | nil => intro res h; simpa [insertMapped]
  | cons t ts ih =>
    intro res h
    rw [insertMapped]
    exact ih (WF_insert h)

/-- The empty polynomial satisfies the invariant. -/
theorem WF_nil : WF ([] : Poly) := ⟨List.Pairwise.nil, by simp⟩

/-- Tail of a well-formed polynomial is well-formed. -/
theorem WF.tail' {t : ℚ × ℕ} {tl : Poly} (h : WF (t :: tl)) : WF tl :=
  ⟨(List.pairwise_cons.mp h.1).2, fun u hu => h.2 u (List.mem_cons_of_mem _ hu)⟩

/-- In a well-formed polynomial all tail degrees are below the head degree. -/
theorem WF.head_lt {t : ℚ × ℕ} {tl : Poly} (h : WF (t :: tl)) :
    ∀ u ∈ tl, u.2 < t.2 :=
  (List.pairwise_cons.mp h.1).1

/-! ## Coefficient-function lemmas and canonicity -/

theorem coeff_nil (e : ℕ) : coeff [] e = 0 := rfl

theorem coeff_cons (t : ℚ × ℕ) (p : Poly) (e : ℕ) :
    coeff (t :: p) e = (if t.2 = e then t.1 else 0) + coeff p e :=
  S_cons _ t p

/-- Additivity of the coefficient weight, used to instantiate the `S` lemmas. -/
theorem coeff_g_add (e : ℕ) :
    ∀ (d : ℕ) (x y : ℚ),
      (if d = e then x + y else 0) = (if d = e then x else 0) + (if d = e then y else 0) := by
  intro d x y
  split <;> simp

/-- Degrees absent from the list contribute a zero coefficient. -/
theorem coeff_of_not_mem {p : Poly} {e : ℕ} (h : ∀ t ∈ p, t.2 ≠ e) : coeff p e = 0 := by
  induction p with
  | nil => rfl
  | cons t tl ih =>
    rw [coeff_cons, if_neg (h t (List.mem_cons_self _ _)),
      ih fun u hu => h u (List.mem_cons_of_mem _ hu)]
    ring

theorem coeff_insert (c : ℚ) (d : ℕ) (p : Poly) (e : ℕ) :
    coeff (insert_term_invariant c d p) e = coeff p e + (if d = e then c else 0) :=
  S_insert (coeff_g_add e) c d p

/-- Head coefficient of a well-formed polynomial is the coefficient at the
head degree. -/
theorem coeff_head {c : ℚ} {d : ℕ} {tl : Poly} (h : WF ((c, d) :: tl)) :
    coeff ((c, d) :: tl) d = c := by
  rw [coeff_cons,
    coeff_of_not_mem fun u hu => Nat.ne_of_lt (h.head_lt u hu)]
  simp

/-- Above the head degree all coefficients of a well-formed polynomial
vanish. -/
theorem coeff_gt {p : Poly} (h : WF p) {e : ℕ} (he : degree p < e) : coeff p e = 0 := by
  cases p with
  | nil => rfl
  | cons t tl =>
    apply coeff_of_not_mem
    intro u hu
    rcases List.mem_cons.mp hu with h' | h'
    · subst h'
      exact Nat.ne_of_lt he
    · exact Nat.ne_of_lt (lt_trans (h.head_lt u h') he)

/-- A non-zero well-formed polynomial has a non-zero leading coefficient. -/
theorem coeff_degree_ne_zero {p : Poly} (h : WF p) (hne : p ≠ []) :
    coeff p (degree p) ≠ 0 := by
  cases p with
  | nil => exact absurd rfl hne
  | cons t tl =>
    obtain ⟨c, d⟩ := t
    rw [show degree ((c, d) :: tl) = d from rfl, coeff_head h]
    exact h.2 (c, d) (List.mem_cons_self _ _)

/-- Canonicity: well-formed term lists with equal coefficient functions are
equal.  This is what makes "the polynomials are equal" and "the term lists
are equal" interchangeable for results of the source operations. -/
theorem WF_ext : ∀ {p q : Poly}, WF p → WF q → (∀ e, coeff p e = coeff q e) → p = q := by
  intro p
  induction p with
  | nil =>
    intro q _ hq hco
    cases q with
    | nil => rfl
    | cons t tl =>
      exfalso
      have h1 := coeff_degree_ne_zero hq (by simp)
      rw [← hco (degree (t :: tl))] at h1
      exact h1 rfl
  | cons t tl ih =>
    intro q hp hq hco
    obtain ⟨c, d⟩ := t
    cases q with
    | nil =>
      exfalso
      have h1 := coeff_degree_ne_zero hp (by simp)
      rw [hco (degree ((c, d) :: tl))] at h1
      exact h1 rfl
    | cons u ul =>
      obtain ⟨c₂, d₂⟩ := u
      have hd : d = d₂ := by
        by_contra hne
        rcases Nat.lt_or_ge d d₂ with hlt | hge
        · have h0 : coeff ((c, d) :: tl) d₂ = 0 := coeff_gt hp hlt
          have h2 : coeff ((c₂, d₂) :: ul) d₂ = c₂ := coeff_head hq
          have hc₂ : c₂ ≠ 0 := hq.2 (c₂, d₂) (List.mem_cons_self _ _)
          rw [hco d₂, h2] at h0
          exact hc₂ h0
        · have hlt : d₂ < d := by omega
          have h0 : coeff ((c₂, d₂) :: ul) d = 0 := coeff_gt hq hlt
          have h2 : coeff ((c, d) :: tl) d = c := coeff_head hp
          have hcne : c ≠ 0 := hp.2 (c, d) (List.mem_cons_self _ _)
          rw [← hco d, h2] at h0
          exact hcne h0
      subst hd
      have hcc : c = c₂ := by
        have h := hco d
        rwa [coeff_head hp, coeff_head hq] at h
      subst hcc
      have hcotl : ∀ e, coeff tl e = coeff ul e := by
        intro e
        have h := hco e
        rw [coeff_cons, coeff_cons] at h
        exact add_left_cancel h
      exact congrArg (List.cons _) (ih hp.tail' hq.tail' hcotl)

/-! ## Semantics of the arithmetic operations -/

theorem sum_map_add {α : Type} (l : List α) (f g : α → ℚ) :
    (l.map fun x => f x + g x).sum = (l.map f).sum + (l.map g).sum := by
  induction l with
  | nil => simp
  | cons x xs ih => simp [ih]; ring

theorem sum_map_neg {α : Type} (l : List α) (f : α → ℚ) :
    (l.map fun x => -(f x)).sum = -((l.map f).sum) := by
  induction l with
  | nil => simp
  | cons x xs ih => simp [ih]; ring

theorem sum_map_mul_left' {α : Type} (l : List α) (f : α → ℚ) (r : ℚ) :
    (l.map fun x => r * f x).sum = r * ((l.map f).sum) := by
  induction l with
  | nil => simp
  | cons x xs ih => simp [ih]; ring

theorem double_sum_swap {α β : Type} (as : List α) (bs : List β) (F : α → β → ℚ) :
    (as.map fun a => (bs.map fun b => F a b).sum).sum
      = (bs.map fun b => (as.map fun a => F a b).sum).sum := by
  induction as with
  | nil => simp
  | cons a as ih =>
    simp only [List.map_cons, List.sum_cons, ih, sum_map_add]

/-- The `__add__` merge adds term sums, whatever the iteration budget. -/
theorem S_addMergeFuel {g : ℕ → ℚ → ℚ} (hadd : ∀ e x y, g e (x + y) = g e x + g e y) :
    ∀ (n : ℕ) (as bs : List (ℚ × ℕ)) (res : Poly),
      S g (addMergeFuel n as bs res) = S g res + S g as + S g bs := by
  intro n
  induction n with
  | zero =>
    intro as bs res
    rw [addMergeFuel, S_insertMapped hadd, S_insertMapped hadd]
    simp [S]
  | succ n ih =>
    intro as bs res
    cases as with
    | nil =>
      rw [addMergeFuel, S_insertMapped hadd]
      simp [S]
    | cons a as' =>
      cases bs with
      | nil =>
        rw [addMergeFuel, S_insertMapped hadd]
        simp [S]
      | cons b bs' =>
        obtain ⟨ca, da⟩ := a
        obtain ⟨cb, db⟩ := b
        rw [addMergeFuel]
        by_cases h1 : db < da
        · rw [if_pos h1, ih, S_insert hadd, S_cons, S_cons]
          ring
        · by_cases h2 : da < db
          · rw [if_neg h1, if_pos h2, ih, S_insert hadd, S_cons, S_cons]
            ring
          · rw [if_neg h1, if_neg h2, ih]
            by_cases h3 : ca + cb = 0
            · have hdd : da = db := by omega
              subst hdd
              have hz : g da ca + g da cb = 0 := by
                rw [← hadd, h3, g_zero hadd]
              rw [if_pos h3, S_cons, S_cons]
              linarith [hz]
            · rw [if_neg h3, S_insert hadd, S_cons, S_cons]
              have hdd : da = db := by omega
              subst hdd
              rw [hadd]
              ring

/-- The `__add__` merge preserves the invariant of the polynomial being
built, whatever the iteration budget. -/
theorem WF_addMergeFuel :
    ∀ (n : ℕ) (as bs : List (ℚ × ℕ)) {res : Poly}, WF res → WF (addMergeFuel n as bs res) := by
  intro n
  induction n with
  | zero =>
    intro as bs res h
    rw [addMergeFuel]
    exact WF_insertMapped _ _ (WF_insertMapped _ _ h)
  | succ n ih =>
    intro as bs res h
    cases as with
    | nil => rw [addMergeFuel]; exact WF_insertMapped _ _ h
    | cons a as' =>
      cases bs with
      | nil => rw [addMergeFuel]; exact WF_insertMapped _ _ h
      | cons b bs' =>
        obtain ⟨ca, da⟩ := a
        obtain ⟨cb, db⟩ := b
        rw [addMergeFuel]
        by_cases h1 : db < da
        · rw [if_pos h1]; exact ih _ _ (WF_insert h)
        · by_cases h2 : da < db
          · rw [if_neg h1, if_pos h2]; exact ih _ _ (WF_insert h)
          · rw [if_neg h1, if_neg h2]
            by_cases h3 : ca + cb = 0
            · rw [if_pos h3]; exact ih _ _ h
            · rw [if_neg h3]; exact ih _ _ (WF_insert h)

theorem coeff_add (p q : Poly) (e : ℕ) : coeff (add p q) e = coeff p e + coeff q e := by
  have h := S_addMergeFuel (g := fun d x => if d = e then x else 0) (coeff_g_add e)
    (p.length + q.length) p q []
  simpa [coeff, add, S_nil] using h

theorem WF_add (p q : Poly) : WF (add p q) :=
  WF_addMergeFuel _ p q WF_nil

theorem coeff_neg (p : Poly) (e : ℕ) : coeff (neg p) e = -(coeff p e) := by
  unfold neg
  have h := S_insertMapped (g := fun d x => if d = e then x else 0) (coeff_g_add e)
    (fun t => (-t.1, t.2)) p []
  rw [show coeff (insertMapped (fun t => (-t.1, t.2)) p []) e
      = coeff [] e + ((p.map fun t => if t.2 = e then -t.1 else 0).sum) from h]
  rw [coeff_nil, zero_add]
  calc (p.map fun t => if t.2 = e then -t.1 else 0).sum
      = (p.map fun t => -(if t.2 = e then t.1 else 0)).sum :=
        congrArg List.sum (List.map_congr_left fun t _ => by split <;> simp)
    _ = -((p.map fun t => if t.2 = e then t.1 else 0).sum) := sum_map_neg _ _
    _ = -(coeff p e) := rfl

theorem WF_neg (p : Poly) : WF (neg p) :=
  WF_insertMapped _ p WF_nil

theorem coeff_sub (p q : Poly) (e : ℕ) : coeff (sub p q) e = coeff p e - coeff q e := by
  unfold sub
  rw [coeff_add, coeff_neg]
  ring

theorem WF_sub (p q : Poly) : WF (sub p q) :=
  WF_add _ _

/-- Coefficient extracted by `_mul_monomial`: each term contributes at its
degree shifted by the monomial degree, scaled by the monomial coefficient. -/
theorem coeff_mul_monomial (p : Poly) (k : ℚ) (dd : ℕ) (e : ℕ) :
    coeff (mul_monomial p k dd) e = S (fun d x => if d + dd = e then x * k else 0) p := by
  unfold mul_monomial
  have h := S_insertMapped (g := fun d x => if d = e then x else 0) (coeff_g_add e)
    (fun t => (t.1 * k, t.2 + dd)) p []
  simpa [coeff, S, S_nil] using h

theorem WF_mul_monomial (p : Poly) (k : ℚ) (dd : ℕ) : WF (mul_monomial p k dd) :=
  WF_insertMapped _ p WF_nil

theorem coeff_as_fraction (p : Poly) (e : ℕ) : coeff (as_fraction_poly p) e = coeff p e := by
  unfold as_fraction_poly
  have h := S_insertMapped (g := fun d x => if d = e then x else 0) (coeff_g_add e)
    (fun t => t) p []
  simpa [coeff, S, S_nil] using h

theorem WF_as_fraction (p : Poly) : WF (as_fraction_poly p) :=
  WF_insertMapped _ p WF_nil

/-- On a well-formed polynomial the `Fraction` promotion is the identity. -/
theorem as_fraction_eq {p : Poly} (h : WF p) : as_fraction_poly p = p :=
  WF_ext (WF_as_fraction p) h (coeff_as_fraction p)

theorem WF_from_tuples (l : List (ℚ × ℕ)) : WF (from_tuples l) :=
  WF_insertMapped _ l WF_nil

/-- Convolution sum computed by `__mul__` at exponent `e`. -/
def convSum (p q : Poly) (e : ℕ) : ℚ :=
  S (fun dd cc => cc * S (fun d x => if dd + d = e then x else 0) q) p

theorem coeff_mul (p q : Poly) (e : ℕ) : coeff (mul p q) e = convSum p q e := by
  suffices h : ∀ (as : List (ℚ × ℕ)) (res : Poly),
      coeff (mulAux as q res) e = coeff res e + convSum as q e by
    have h2 := h p []
    simpa [mul, coeff_nil] using h2
  intro as
  induction as with
  | nil =>
    intro res
    simp [mulAux, convSum, S_nil]
  | cons a as ih =>
    intro res
    rw [mulAux, ih]
    have hins := S_insertMapped (g := fun d x => if d = e then x else 0) (coeff_g_add e)
      (fun t => (a.1 * t.1, a.2 + t.2)) q res
    rw [show coeff (insertMapped (fun t => (a.1 * t.1, a.2 + t.2)) q res) e
        = coeff res e + ((q.map fun t => if a.2 + t.2 = e then a.1 * t.1 else 0).sum) from hins]
    rw [show convSum (a :: as) q e
        = a.1 * S (fun d x => if a.2 + d = e then x else 0) q + convSum as q e from
      S_cons _ a as]
    have hfac : ((q.map fun t => if a.2 + t.2 = e then a.1 * t.1 else 0).sum)
        = a.1 * S (fun d x => if a.2 + d = e then x else 0) q := by
      rw [S, ← sum_map_mul_left']
      exact congrArg List.sum (List.map_congr_left fun t _ => by split <;> ring)
    rw [hfac]
    ring

theorem WF_mul (p q : Poly) : WF (mul p q) := by
  suffices h : ∀ (as : List (ℚ × ℕ)) (res : Poly), WF res → WF (mulAux as q res) from
    h p [] WF_nil
  intro as
  induction as with
  | nil => intro res h; simpa [mulAux]
  | cons a as ih =>
    intro res h
    rw [mulAux]
    exact ih _ (WF_insertMapped _ _ h)

/-- Expanded double-sum form of the multiplication convolution. -/
theorem convSum_eq_double (p q : Poly) (e : ℕ) :
    convSum p q e
      = (p.map fun a => (q.map fun b => if a.2 + b.2 = e then a.1 * b.1 else 0).sum).sum := by
  unfold convSum S
  refine congrArg List.sum (List.map_congr_left fun a _ => ?_)
  show a.1 * (q.map fun t => if a.2 + t.2 = e then t.1 else 0).sum = _
  rw [← sum_map_mul_left']
  exact congrArg List.sum (List.map_congr_left fun b _ => by split <;> ring)

theorem convSum_comm (p q : Poly) (e : ℕ) : convSum p q e = convSum q p e := by
  rw [convSum_eq_double, convSum_eq_double, double_sum_swap]
  refine congrArg List.sum (List.map_congr_left fun b _ => ?_)
  refine congrArg List.sum (List.map_congr_left fun a _ => ?_)
  rw [Nat.add_comm a.2 b.2, mul_comm a.1 b.1]

/-! ## Long division: exact cancellation of the leading term -/

theorem S_eq_zero {g : ℕ → ℚ → ℚ} {p : Poly} (h : ∀ t ∈ p, g t.2 t.1 = 0) : S g p = 0 := by
  induction p with
  | nil => rfl
  | cons t tl ih =>
    rw [S_cons, h t (List.mem_cons_self _ _), ih fun u hu => h u (List.mem_cons_of_mem _ hu)]
    ring

/-- Every stored degree of a well-formed polynomial is bounded by `degree`. -/
theorem WF_le_degree {p : Poly} (h : WF p) : ∀ t ∈ p, t.2 ≤ degree p := by
  cases p with
  | nil => simp
  | cons hd tl =>
    intro t ht
    rcases List.mem_cons.mp ht with h' | h'
    · subst h'
      exact le_refl _
    · exact le_of_lt (h.head_lt t h')

theorem leading_term_degree {p : Poly} (hne : p ≠ []) : (leading_term p).2 = degree p := by
  cases p with
  | nil => exact absurd rfl hne
  | cons t tl => rfl

theorem leading_coeff_eq {p : Poly} (h : WF p) (hne : p ≠ []) :
    (leading_term p).1 = coeff p (degree p) := by
  cases p with
  | nil => exact absurd rfl hne
  | cons t tl =>
    obtain ⟨c, d⟩ := t
    rw [show leading_term ((c, d) :: tl) = (c, d) from rfl,
      show degree ((c, d) :: tl) = d from rfl, coeff_head h]

theorem leading_coeff_ne_zero {p : Poly} (h : WF p) (hne : p ≠ []) :
    (leading_term p).1 ≠ 0 := by
  cases p with
  | nil => exact absurd rfl hne
  | cons t tl => exact h.2 t (List.mem_cons_self _ _)

/-- The scaled divisor has no coefficient above the shifted degrees. -/
theorem coeff_mul_monomial_high {b : Poly} {fc : ℚ} {fd e : ℕ}
    (he : ∀ t ∈ b, t.2 + fd ≠ e) : coeff (mul_monomial b fc fd) e = 0 := by
  rw [coeff_mul_monomial]
  exact S_eq_zero fun t ht => by
    show (if t.2 + fd = e then t.1 * fc else 0) = 0
    rw [if_neg (he t ht)]

/-- Leading coefficient of the scaled divisor used by one division step. -/
theorem coeff_mul_monomial_at_lead {b : Poly} (hb : WF b) (hbne : b ≠ []) (fc : ℚ) {rd : ℕ}
    (hdeg : degree b ≤ rd) :
    coeff (mul_monomial b fc (rd - degree b)) rd = (leading_term b).1 * fc := by
  cases b with
  | nil => exact absurd rfl hbne
  | cons t tl =>
    obtain ⟨dc, dd⟩ := t
    have hdd : dd ≤ rd := hdeg
    rw [coeff_mul_monomial, show degree ((dc, dd) :: tl) = dd from rfl]
    rw [show S (fun d x => if d + (rd - dd) = rd then x * fc else 0) ((dc, dd) :: tl)
        = (if dd + (rd - dd) = rd then dc * fc else 0)
          + S (fun d x => if d + (rd - dd) = rd then x * fc else 0) tl from S_cons _ _ _]
    rw [if_pos (by omega)]
    rw [S_eq_zero fun u hu => by
      show (if u.2 + (rd - dd) = rd then u.1 * fc else 0) = 0
      have hu2 : u.2 < dd := hb.head_lt u hu
      rw [if_neg (by omega)]]
    show dc * fc + 0 = dc * fc
    ring

/-- One long-division step zeroes every coefficient from the remainder's
leading degree up: the factor `rc / dc` cancels the leading term exactly. -/
theorem div_step_zero {b r : Poly} (hb : WF b) (hr : WF r) (hbne : b ≠ []) (hrne : r ≠ [])
    (hdeg : degree b ≤ degree r) {e : ℕ} (he : degree r ≤ e) :
    coeff (sub r (mul_monomial b ((leading_term r).1 / (leading_term b).1)
      (degree r - degree b))) e = 0 := by
  rw [coeff_sub]
  rcases Nat.eq_or_lt_of_le he with heq | hlt
  · subst heq
    rw [coeff_mul_monomial_at_lead hb hbne _ hdeg]
    have hdc := leading_coeff_ne_zero hb hbne
    rw [mul_comm, div_mul_cancel₀ _ hdc, leading_coeff_eq hr hrne]
    ring
  · rw [coeff_gt hr hlt]
    rw [coeff_mul_monomial_high fun t ht => by
      have := WF_le_degree hb t ht
      omega]
    ring

/-- One long-division step either empties the remainder or strictly lowers
its degree. -/
theorem div_step_lt {b r : Poly} (hb : WF b) (hr : WF r) (hbne : b ≠ []) (hrne : r ≠ [])
    (hdeg : degree b ≤ degree r) :
    sub r (mul_monomial b ((leading_term r).1 / (leading_term b).1) (degree r - degree b)) = []
      ∨ degree (sub r (mul_monomial b ((leading_term r).1 / (leading_term b).1)
          (degree r - degree b))) < degree r := by
  by_cases hne :
      sub r (mul_monomial b ((leading_term r).1 / (leading_term b).1)
        (degree r - degree b)) = []
  · exact Or.inl hne
  · right
    by_contra hge
    push_neg at hge
    exact coeff_degree_ne_zero (WF_sub _ _) hne (div_step_zero hb hr hbne hrne hdeg hge)

theorem is_zero_iff {p : Poly} : is_zero p = true ↔ p = [] := by
  cases p <;> simp [is_zero]

theorem divLoop_nil (n : ℕ) (b : Poly) (dlc : ℚ) (dld : ℕ) (q : Poly) :
    divLoop n b dlc dld q [] = (q, []) := by
  cases n with
  | zero => rfl
  | succ n => simp [divLoop, is_zero]

/-- Multiplying by the empty polynomial yields the zero coefficient
function. -/
theorem coeff_mul_nil (b : Poly) (e : ℕ) : coeff (mul b []) e = 0 := by
  rw [coeff_mul]
  exact S_eq_zero fun t _ => mul_zero t.1

/-- Inserting a term into the multiplier adds the scaled-divisor
coefficients to the product. -/
theorem convSum_insert (b q : Poly) (fc : ℚ) (fd : ℕ) (e : ℕ) :
    convSum b (insert_term_invariant fc fd q) e
      = convSum b q e + coeff (mul_monomial b fc fd) e := by
  rw [coeff_mul_monomial]
  show (b.map fun t => t.1 * ((insert_term_invariant fc fd q).map
      fun u => if t.2 + u.2 = e then u.1 else 0).sum).sum
    = (b.map fun t => t.1 * (q.map fun u => if t.2 + u.2 = e then u.1 else 0).sum).sum
      + (b.map fun t => if t.2 + fd = e then t.1 * fc else 0).sum
  rw [← sum_map_add]
  refine congrArg List.sum (List.map_congr_left fun t _ => ?_)
  have h := S_insert (g := fun d x => if t.2 + d = e then x else 0)
    (fun d x y => by
      show (if t.2 + d = e then x + y else 0)
        = (if t.2 + d = e then x else 0) + (if t.2 + d = e then y else 0)
      split <;> simp) fc fd q
  rw [show ((insert_term_invariant fc fd q).map
      fun u => if t.2 + u.2 = e then u.1 else 0).sum
      = ((q.map fun u => if t.2 + u.2 = e then u.1 else 0).sum)
        + (if t.2 + fd = e then fc else 0) from h]
  by_cases hc : t.2 + fd = e
  · simp only [if_pos hc]
    ring
  · simp only [if_neg hc]
    ring

theorem coeff_mul_insert (b q : Poly) (fc : ℚ) (fd : ℕ) (e : ℕ) :
    coeff (mul b (insert_term_invariant fc fd q)) e
      = coeff (mul b q) e + coeff (mul_monomial b fc fd) e := by
  rw [coeff_mul, coeff_mul, convSum_insert]

/-- Master lemma for the long-division loop: with any iteration budget
exceeding the remainder's degree the loop preserves well-formedness and the
division invariant `b*q + r = const`, and stops with an empty remainder or
one of degree below the divisor's. -/
theorem divLoop_spec {b : Poly} (hb : WF b) (hbne : b ≠ []) :
    ∀ (n : ℕ) (q r : Poly), WF q → WF r → degree r < n →
      WF (divLoop n b (leading_term b).1 (degree b) q r).1
      ∧ WF (divLoop n b (leading_term b).1 (degree b) q r).2
      ∧ (∀ e, coeff (mul b (divLoop n b (leading_term b).1 (degree b) q r).1) e
            + coeff (divLoop n b (leading_term b).1 (degree b) q r).2 e
          = coeff (mul b q) e + coeff r e)
      ∧ ((divLoop n b (leading_term b).1 (degree b) q r).2 = []
          ∨ degree (divLoop n b (leading_term b).1 (degree b) q r).2 < degree b) := by
  intro n
  induction n with
  | zero => intro q r _ _ hlt; omega
  | succ n ih =>
    intro q r hq hr hlt
    rw [divLoop]
    by_cases hg : is_zero r = false ∧ degree b ≤ degree r
    · rw [if_pos hg]
      have hrne : r ≠ [] := by
        intro hcon
        subst hcon
        simp [is_zero] at hg
      have hdeg : degree b ≤ degree r := hg.2
      rw [leading_term_degree hrne]
      rcases div_step_lt hb hr hbne hrne hdeg with hnil | hlt1
      · rw [hnil, divLoop_nil]
        refine ⟨WF_insert hq, WF_nil, ?_, Or.inl rfl⟩
        intro e
        have hz : coeff (sub r (mul_monomial b ((leading_term r).1 / (leading_term b).1)
            (degree r - degree b))) e = 0 := by rw [hnil, coeff_nil]
        rw [coeff_sub] at hz
        rw [coeff_mul_insert, coeff_nil]
        linarith [hz]
      · obtain ⟨ihq, ihr, ihinv, ihpost⟩ :=
          ih (insert_term_invariant ((leading_term r).1 / (leading_term b).1)
              (degree r - degree b) q)
            (sub r (mul_monomial b ((leading_term r).1 / (leading_term b).1)
              (degree r - degree b)))
            (WF_insert hq) (WF_sub _ _) (by omega)
        refine ⟨ihq, ihr, ?_, ihpost⟩
        intro e
        rw [ihinv e, coeff_mul_insert, coeff_sub]
        ring
    · rw [if_neg hg]
      refine ⟨hq, hr, fun e => rfl, ?_⟩
      by_cases hre : r = []
      · exact Or.inl hre
      · right
        have hz : is_zero r = false := by
          cases r with
          | nil => exact absurd rfl hre
          | cons t tl => simp [is_zero]
        by_contra hcon
        push_neg at hcon
        exact hg ⟨hz, hcon⟩

/-- Closed form of `__divmod__` for a non-zero divisor. -/
theorem divmod_eq (a : Poly) {b : Poly} (hbne : b ≠ []) :
    divmod a b = Except.ok (divLoop
      (degree (insertMapped (fun t => t) (as_fraction_poly a) []) + 1)
      (as_fraction_poly b)
      (leading_term (as_fraction_poly b)).1
      (leading_term (as_fraction_poly b)).2
      []
      (insertMapped (fun t => t) (as_fraction_poly a) [])) := by
  have hzb : ¬ (is_zero b = true) := fun h => hbne (is_zero_iff.mp h)
  unfold divmod
  rw [if_neg hzb]

/-- Model of `__divmod__`'s documented behaviour on well-formed operands:
it succeeds, both results are well-formed, `b*q + r` has the coefficients
of `a`, and the remainder is empty or of degree below the divisor's. -/
theorem divmod_spec {a b : Poly} (ha : WF a) (hb : WF b) (hbne : b ≠ []) :
    ∃ q r, divmod a b = Except.ok (q, r)
      ∧ WF q ∧ WF r
      ∧ (∀ e, coeff (mul b q) e + coeff r e = coeff a e)
      ∧ (r = [] ∨ degree r < degree b) := by
  have hcopy : insertMapped (fun t => t) (as_fraction_poly a) []
      = as_fraction_poly (as_fraction_poly a) := rfl
  rw [divmod_eq a hbne, hcopy, as_fraction_eq ha, as_fraction_eq ha, as_fraction_eq hb,
    leading_term_degree hbne]
  obtain ⟨h1, h2, h3, h4⟩ := divLoop_spec hb hbne (degree a + 1) [] a WF_nil ha (by omega)
  refine ⟨_, _, rfl, h1, h2, ?_, h4⟩
  intro e
  have h := h3 e
  rwa [coeff_mul_nil, zero_add] at h

/-! ## Membership characterisation for well-formed polynomials -/

/-- A pair is stored in a well-formed polynomial exactly when it is the
non-zero coefficient at its degree. -/
theorem mem_iff_coeff (x : ℚ) (e : ℕ) :
    ∀ {p : Poly}, WF p → ((x, e) ∈ p ↔ (coeff p e = x ∧ x ≠ 0)) := by
  intro p
  induction p with
  | nil =>
    intro _
    rw [coeff_nil]
    constructor
    · intro hx
      exact absurd hx (List.not_mem_nil _)
    · rintro ⟨h1, h2⟩
      exact absurd h1.symm h2
  | cons hd tl ih =>
    intro h
    obtain ⟨c, d⟩ := hd
    rw [coeff_cons]
    by_cases hde : d = e
    · subst hde
      have h0 : coeff tl d = 0 :=
        coeff_of_not_mem fun u hu => Nat.ne_of_lt (h.head_lt u hu)
      rw [h0, if_pos rfl, add_zero]
      constructor
      · intro hmem
        rcases List.mem_cons.mp hmem with h' | h'
        · have hx : x = c := by
            simpa using congrArg Prod.fst h'
          subst hx
          exact ⟨rfl, h.2 (x, d) (List.mem_cons_self _ _)⟩
        · exact absurd (h.head_lt (x, d) h') (lt_irrefl d)
      · rintro ⟨h1, _⟩
        subst h1
        exact List.mem_cons_self _ _
    · rw [if_neg hde, zero_add]
      constructor
      · intro hmem
        rcases List.mem_cons.mp hmem with h' | h'
        · exact absurd (congrArg Prod.snd h').symm (by simpa using hde)
        · exact (ih h.tail').mp h'
      · intro hx
        exact List.mem_cons_of_mem _ ((ih h.tail').mpr hx)

/-- A degree is stored in a well-formed polynomial exactly when its
coefficient is non-zero. -/
theorem degree_mem_iff {p : Poly} (h : WF p) (e : ℕ) :
    e ∈ p.map Prod.snd ↔ coeff p e ≠ 0 := by
  constructor
  · intro hmem
    rcases List.mem_map.mp hmem with ⟨t, ht, hte⟩
    have ht' : (t.1, e) ∈ p := by
      rw [← hte]
      exact ht
    obtain ⟨h1, h2⟩ := (mem_iff_coeff t.1 e h).mp ht'
    rw [h1]
    exact h2
  · intro hc
    by_contra hmem
    exact hc (coeff_of_not_mem fun t ht hte => hmem (List.mem_map.mpr ⟨t, ht, hte⟩))

/-! ## The `_size` bookkeeping -/

theorem insertGoSized_fst (c : ℚ) (d : ℕ) :
    ∀ (p : Poly) (s : ℤ), (insertGoSized c d p s).1 = insertGo c d p := by
  intro p
  induction p with
  | nil => intro s; rfl
  | cons hd tl ih =>
    obtain ⟨c', d'⟩ := hd
    intro s
    by_cases h1 : d' < d
    · simp [insertGoSized, insertGo, h1]
    · by_cases h2 : d' = d
      · subst h2
        by_cases h3 : c' + c = 0 <;> simp [insertGoSized, insertGo, h1, h3]
      · simp [insertGoSized, insertGo, h1, h2, ih]

/-- The size delta of one insertion walk matches the length delta of the
term list. -/
theorem insertGoSized_snd (c : ℚ) (d : ℕ) :
    ∀ (p : Poly) (s : ℤ),
      (insertGoSized c d p s).2 + (p.length : ℤ)
        = s + ((insertGoSized c d p s).1.length : ℤ) := by
  intro p
  induction p with
  | nil => intro s; simp [insertGoSized]
  | cons hd tl ih =>
    obtain ⟨c', d'⟩ := hd
    intro s
    by_cases h1 : d' < d
    · simp [insertGoSized, h1]
      omega
    · by_cases h2 : d' = d
      · subst h2
        by_cases h3 : c' + c = 0
        · simp [insertGoSized, h1, h3]
        · simp [insertGoSized, h1, h3]
      · have h := ih s
        simp [insertGoSized, h1, h2]
        omega

theorem insert_sized_fst (c : ℚ) (d : ℕ) (st : Poly × ℤ) :
    (insert_sized c d st).1 = insert_term_invariant c d st.1 := by
  unfold insert_sized insert_term_invariant
  by_cases hc : c = 0
  · simp [hc]
  · simp [hc, insertGoSized_fst]

/-- `_insert_term_invariant` keeps `_size` equal to the node count. -/
theorem insert_sized_len (c : ℚ) (d : ℕ) (st : Poly × ℤ) (h : st.2 = (st.1.length : ℤ)) :
    (insert_sized c d st).2 = ((insert_sized c d st).1.length : ℤ) := by
  unfold insert_sized
  by_cases hc : c = 0
  · simpa [hc]
  · simp only [if_neg hc]
    have hgo := insertGoSized_snd c d st.1 st.2
    omega

theorem build_sized_aux :
    ∀ (l : List (ℚ × ℕ)) (st : Poly × ℤ), st.2 = (st.1.length : ℤ) →
      (l.foldl (fun acc t => insert_sized t.1 t.2 acc) st).2
        = ((l.foldl (fun acc t => insert_sized t.1 t.2 acc) st).1.length : ℤ) := by
  intro l
  induction l with
  | nil => intro st h; simpa
  | cons t ts ih =>
    intro st h
    rw [List.foldl_cons]
    exact ih _ (insert_sized_len t.1 t.2 st h)

/-- In any freshly built polynomial, `_size` equals the node count. -/
theorem build_sized_inv (l : List (ℚ × ℕ)) :
    (build_sized l).2 = ((build_sized l).1.length : ℤ) :=
  build_sized_aux l ([], 0) (by simp)

theorem build_sized_fst_aux :
    ∀ (l : List (ℚ × ℕ)) (st : Poly × ℤ),
      (l.foldl (fun acc t => insert_sized t.1 t.2 acc) st).1
        = insertMapped (fun t => t) l st.1 := by
  intro l
  induction l with
  | nil => intro st; rfl
  | cons t ts ih =>
    intro st
    rw [List.foldl_cons, insertMapped, ih, insert_sized_fst]

/-- The size-tracking build produces exactly the constructor's term list. -/
theorem build_sized_fst (l : List (ℚ × ℕ)) : (build_sized l).1 = from_tuples l :=
  build_sized_fst_aux l ([], 0)

/-- The long-division loop preserves well-formedness of quotient and
remainder, for arbitrary divisor data. -/
theorem divLoop_WF :
    ∀ (n : ℕ) (divisor : Poly) (dlc : ℚ) (dld : ℕ) (q r : Poly), WF q → WF r →
      WF (divLoop n divisor dlc dld q r).1 ∧ WF (divLoop n divisor dlc dld q r).2 := by
  intro n
  induction n with
  | zero => intro divisor dlc dld q r hq hr; exact ⟨hq, hr⟩
  | succ n ih =>
    intro divisor dlc dld q r hq hr
    rw [divLoop]
    by_cases hg : is_zero r = false ∧ dld ≤ degree r
    · rw [if_pos hg]
      exact ih divisor dlc dld _ _ (WF_insert hq) (WF_sub _ _)
    · rw [if_neg hg]
      exact ⟨hq, hr⟩

/-- Whenever `__divmod__` succeeds, both returned polynomials are
well-formed — with no assumption on the operands. -/
theorem divmod_ok_WF {a b q r : Poly} (h : divmod a b = Except.ok (q, r)) :
    WF q ∧ WF r := by
  by_cases hb : b = []
  · subst hb
    exact absurd h (by simp [divmod, is_zero])
  · rw [divmod_eq a hb] at h
    have hqr := Except.ok.inj h
    obtain ⟨h1, h2⟩ := divLoop_WF
      (degree (insertMapped (fun t => t) (as_fraction_poly a) []) + 1)
      (as_fraction_poly b)
      (leading_term (as_fraction_poly b)).1 (leading_term (as_fraction_poly b)).2
      [] (insertMapped (fun t => t) (as_fraction_poly a) [])
      WF_nil (WF_insertMapped _ _ WF_nil)
    rw [hqr] at h1 h2
    exact ⟨h1, h2⟩

/-- Closed form of `__truediv__` once the underlying `__divmod__` call is
known to succeed. -/
theorem truediv_eq (a b : Poly) {q r : Poly} (h : divmod a b = Except.ok (q, r)) :
    truediv a b
      = if is_zero r then Except.ok q else Except.error PolyError.nonExactDivision := by
  unfold truediv
  rw [h]

/-! ## The claims -/

section
attribute [local semireducible] Rat.add Rat.mul Rat.sub Rat.inv

/-- C1: for every polynomial produced by construction or by any public
operation (`fromTerms`, `add`, `subtract`, `negate`, `multiply`, `divide`,
`divideExact`), the term sequence is in strictly descending degree order with
no duplicate degrees, and every stored coefficient is non-zero. -/
theorem claim_C1_invariants :
    ∀ (l : List (ℚ × ℕ)) (a b q r q' : Poly),
      WF (from_tuples l) ∧ WF (add a b) ∧ WF (sub a b) ∧ WF (neg a) ∧ WF (mul a b)
      ∧ (divmod a b = Except.ok (q, r) → WF q ∧ WF r)
      ∧ (truediv a b = Except.ok q' → WF q') := by
  intro l a b q r q'
  refine ⟨WF_from_tuples l, WF_add a b, WF_sub a b, WF_neg a, WF_mul a b,
    fun h => divmod_ok_WF h, ?_⟩
  intro hok
  cases hdm : divmod a b with
  | error e =>
    have hte : truediv a b = Except.error e := by
      unfold truediv
      rw [hdm]
    rw [hte] at hok
    simp at hok
  | ok pr =>
    obtain ⟨qq, rr⟩ := pr
    rw [truediv_eq a b hdm] at hok
    by_cases hz : is_zero rr = true
    · rw [if_pos hz] at hok
      have hq' := Except.ok.inj hok
      exact hq' ▸ (divmod_ok_WF hdm).1
    · rw [if_neg hz] at hok
      simp at hok

theorem claim_C1_invariants_witness :
    WF (from_tuples [((3 : ℚ), 2), (2, 1), (1, 0)])
    ∧ WF [((1 : ℚ), 2), ((-2 : ℚ), 1), ((1 : ℚ), 0)] ∧ WF ([] : Poly) := by
  have h := claim_C1_invariants [((3 : ℚ), 2), (2, 1), (1, 0)]
    [((1 : ℚ), 3), (-3, 2), (3, 1), (-1, 0)] [((1 : ℚ), 1), (-1, 0)]
    [((1 : ℚ), 2), (-2, 1), (1, 0)] [] [((1 : ℚ), 2), (-2, 1), (1, 0)]
  exact ⟨h.1, (h.2.2.2.2.2.1 (by decide)).1, (h.2.2.2.2.2.1 (by decide)).2⟩

/-- C2: for every dividend `a` and non-zero divisor `b` (well-formed, as all
constructed polynomials are), `divide` returns `(q, r)` with
`a = b*q + r` under exact rational equality, and `r` is the zero polynomial
or `degree r < degree b`. -/
theorem claim_C2_division_correct :
    ∀ (a b : Poly), WF a → WF b → b ≠ [] →
      ∃ q r, divmod a b = Except.ok (q, r)
        ∧ add (mul b q) r = a
        ∧ (r = [] ∨ degree r < degree b) := by
  intro a b ha hb hbne
  obtain ⟨q, r, hok, _, hWr, hco, hpost⟩ := divmod_spec ha hb hbne
  refine ⟨q, r, hok, ?_, hpost⟩
  exact WF_ext (WF_add _ _) ha fun e => by rw [coeff_add, hco e]

theorem claim_C2_division_correct_witness :
    ∃ q r,
      divmod [((1 : ℚ), 3), (-3, 2), (3, 1), (-1, 0)] [((1 : ℚ), 1), (-1, 0)]
          = Except.ok (q, r)
        ∧ add (mul [((1 : ℚ), 1), (-1, 0)] q) r = [((1 : ℚ), 3), (-3, 2), (3, 1), (-1, 0)]
        ∧ (r = [] ∨ degree r < degree [((1 : ℚ), 1), (-1, 0)]) :=
  claim_C2_division_correct _ _ (by decide) (by decide) (by decide)

/-- C3: one iteration of the long-division loop cancels the remainder's
leading coefficient exactly (the coefficient of `x^(degree r)` of the new
remainder is zero), so the new remainder is the zero polynomial or has a
strictly smaller degree — which is why the loop terminates. -/
theorem claim_C3_step_decreases :
    ∀ (b r : Poly), WF b → WF r → b ≠ [] → r ≠ [] → degree b ≤ degree r →
      coeff (sub r (mul_monomial b ((leading_term r).1 / (leading_term b).1)
        (degree r - degree b))) (degree r) = 0
      ∧ (sub r (mul_monomial b ((leading_term r).1 / (leading_term b).1)
            (degree r - degree b)) = []
        ∨ degree (sub r (mul_monomial b ((leading_term r).1 / (leading_term b).1)
            (degree r - degree b))) < degree r) := by
  intro b r hb hr hbne hrne hdeg
  exact ⟨div_step_zero hb hr hbne hrne hdeg (le_refl _),
    div_step_lt hb hr hbne hrne hdeg⟩

theorem claim_C3_step_decreases_witness :
    coeff (sub [((1 : ℚ), 2), (1, 0)]
        (mul_monomial [((1 : ℚ), 1), (1, 0)]
          ((leading_term [((1 : ℚ), 2), (1, 0)]).1 / (leading_term [((1 : ℚ), 1), (1, 0)]).1)
          (degree [((1 : ℚ), 2), (1, 0)] - degree [((1 : ℚ), 1), (1, 0)])))
      (degree [((1 : ℚ), 2), (1, 0)]) = 0
    ∧ (sub [((1 : ℚ), 2), (1, 0)]
          (mul_monomial [((1 : ℚ), 1), (1, 0)]
            ((leading_term [((1 : ℚ), 2), (1, 0)]).1 / (leading_term [((1 : ℚ), 1), (1, 0)]).1)
            (degree [((1 : ℚ), 2), (1, 0)] - degree [((1 : ℚ), 1), (1, 0)])) = []
      ∨ degree (sub [((1 : ℚ), 2), (1, 0)]
          (mul_monomial [((1 : ℚ), 1), (1, 0)]
            ((leading_term [((1 : ℚ), 2), (1, 0)]).1 / (leading_term [((1 : ℚ), 1), (1, 0)]).1)
            (degree [((1 : ℚ), 2), (1, 0)] - degree [((1 : ℚ), 1), (1, 0)])))
          < degree [((1 : ℚ), 2), (1, 0)]) :=
  claim_C3_step_decreases _ _ (by decide) (by decide) (by decide) (by decide) (by decide)

/-- C4: `insert(coefficient, degree)` always succeeds and behaves as
specified: a zero coefficient is a no-op; a new degree is inserted keeping
the invariant (so at the unique position with strictly descending degrees);
an existing degree has its coefficient merged, the term disappearing exactly
when the merged coefficient is zero. -/
theorem claim_C4_insert_contract :
    ∀ (c : ℚ) (d : ℕ) (p : Poly), WF p →
      (c = 0 → insert_term_invariant c d p = p)
      ∧ WF (insert_term_invariant c d p)
      ∧ (∀ e, coeff (insert_term_invariant c d p) e = coeff p e + (if d = e then c else 0))
      ∧ (c ≠ 0 → d ∉ p.map Prod.snd → (c, d) ∈ insert_term_invariant c d p)
      ∧ (∀ c₀, (c₀, d) ∈ p →
          (c₀ + c = 0 → d ∉ (insert_term_invariant c d p).map Prod.snd)
          ∧ (c₀ + c ≠ 0 → (c₀ + c, d) ∈ insert_term_invariant c d p)) := by
  intro c d p hp
  have hWi : WF (insert_term_invariant c d p) := WF_insert hp
  refine ⟨?_, hWi, coeff_insert c d p, ?_, ?_⟩
  · intro hc
    simp [insert_term_invariant, hc]
  · intro hc hmem
    have h0 : coeff p d = 0 := by
      by_contra hne
      exact hmem ((degree_mem_iff hp d).mpr hne)
    refine (mem_iff_coeff c d hWi).mpr ⟨?_, hc⟩
    rw [coeff_insert, h0, if_pos rfl, zero_add]
  · intro c₀ hc₀
    obtain ⟨hcoeff, _⟩ := (mem_iff_coeff c₀ d hp).mp hc₀
    constructor
    · intro hsum hmem2
      apply (degree_mem_iff hWi d).mp hmem2
      rw [coeff_insert, hcoeff, if_pos rfl, hsum]
    · intro hsum
      refine (mem_iff_coeff _ d hWi).mpr ⟨?_, hsum⟩
      rw [coeff_insert, hcoeff, if_pos rfl]

theorem claim_C4_insert_contract_witness :
    WF (insert_term_invariant 2 1 [((3 : ℚ), 2), (-2, 1)])
    ∧ ((-2 : ℚ) + 2 = 0 →
        (1 : ℕ) ∉ (insert_term_invariant 2 1 [((3 : ℚ), 2), (-2, 1)]).map Prod.snd) := by
  have h := claim_C4_insert_contract 2 1 [((3 : ℚ), 2), (-2, 1)] (by decide)
  exact ⟨h.2.1, (h.2.2.2.2 (-2) (by decide)).1⟩

/-- C5: for every non-zero divisor, `divideExact` fails with
`NonExactDivision` exactly when `divide`'s remainder is non-zero, and
otherwise returns `divide`'s quotient. -/
theorem claim_C5_exactness_gate :
    ∀ (a b : Poly), b ≠ [] →
      ∃ q r, divmod a b = Except.ok (q, r)
        ∧ (r = [] → truediv a b = Except.ok q)
        ∧ (r ≠ [] → truediv a b = Except.error PolyError.nonExactDivision) := by
  intro a b hbne
  obtain ⟨q, r, hok⟩ : ∃ q r, divmod a b = Except.ok (q, r) := ⟨_, _, divmod_eq a hbne⟩
  refine ⟨q, r, hok, ?_, ?_⟩
  · intro hr
    rw [truediv_eq a b hok, hr]
    simp [is_zero]
  · intro hr
    rw [truediv_eq a b hok, if_neg (fun h => hr (is_zero_iff.mp h))]

theorem claim_C5_exactness_gate_witness :
    ∃ q r, divmod [((1 : ℚ), 2), (1, 0)] [((1 : ℚ), 1), (1, 0)] = Except.ok (q, r)
      ∧ (r = [] → truediv [((1 : ℚ), 2), (1, 0)] [((1 : ℚ), 1), (1, 0)] = Except.ok q)
      ∧ (r ≠ [] → truediv [((1 : ℚ), 2), (1, 0)] [((1 : ℚ), 1), (1, 0)]
          = Except.error PolyError.nonExactDivision) :=
  claim_C5_exactness_gate _ _ (by decide)

/-- C6: `divide` and `divideExact` fail with `DivisionByZero` exactly when
the divisor is the zero polynomial, in which case no quotient or remainder
is produced. -/
theorem claim_C6_zero_divisor :
    ∀ (a b : Poly),
      (divmod a b = Except.error PolyError.divisionByZero ↔ b = [])
      ∧ (truediv a b = Except.error PolyError.divisionByZero ↔ b = []) := by
  intro a b
  by_cases hb : b = []
  · subst hb
    exact ⟨⟨fun _ => rfl, fun _ => rfl⟩, ⟨fun _ => rfl, fun _ => rfl⟩⟩
  · obtain ⟨q, r, hok⟩ : ∃ q r, divmod a b = Except.ok (q, r) := ⟨_, _, divmod_eq a hb⟩
    constructor
    · constructor
      · intro h
        rw [hok] at h
        exact absurd h (by simp)
      · intro h
        exact absurd h hb
    · constructor
      · intro h
        rw [truediv_eq a b hok] at h
        by_cases hz : is_zero r = true
        · rw [if_pos hz] at h
          simp at h
        · rw [if_neg hz] at h
          simp at h
      · intro h
        exact absurd h hb

theorem claim_C6_zero_divisor_witness :
    (divmod [((1 : ℚ), 1)] [] = Except.error PolyError.divisionByZero ↔ ([] : Poly) = [])
    ∧ (truediv [((1 : ℚ), 1)] [] = Except.error PolyError.divisionByZero ↔ ([] : Poly) = []) :=
  claim_C6_zero_divisor [((1 : ℚ), 1)] []

/-- C7: `add` and `multiply` are commutative. -/
theorem claim_C7_commutativity :
    ∀ (a b : Poly), add a b = add b a ∧ mul a b = mul b a := by
  intro a b
  constructor
  · exact WF_ext (WF_add a b) (WF_add b a) fun e => by
      rw [coeff_add, coeff_add]; ring
  · exact WF_ext (WF_mul a b) (WF_mul b a) fun e => by
      rw [coeff_mul, coeff_mul, convSum_comm]

/-- C8: `degree()` returns the highest stored degree of a non-empty
polynomial, and returns `0` (not an error or a sentinel) on the zero
polynomial. -/
theorem claim_C8_degree :
    degree ([] : Poly) = 0
    ∧ ∀ (p : Poly), WF p → p ≠ [] →
        degree p ∈ p.map Prod.snd ∧ ∀ e ∈ p.map Prod.snd, e ≤ degree p := by
  refine ⟨rfl, ?_⟩
  intro p hp hne
  constructor
  · cases p with
    | nil => exact absurd rfl hne
    | cons t tl => exact List.mem_map.mpr ⟨t, List.mem_cons_self _ _, rfl⟩
  · intro e he
    rcases List.mem_map.mp he with ⟨t, ht, rfl⟩
    exact WF_le_degree hp t ht

theorem claim_C8_degree_witness :
    degree [((3 : ℚ), 2), (2, 1)] ∈ [((3 : ℚ), 2), (2, 1)].map Prod.snd
    ∧ ∀ e ∈ [((3 : ℚ), 2), (2, 1)].map Prod.snd, e ≤ degree [((3 : ℚ), 2), (2, 1)] :=
  claim_C8_degree.2 _ (by decide) (by decide)

/-- C9: `toString` renders the zero polynomial as `"0"`; a single term is
rendered with a `"- "` only when negative, the magnitude is suppressed
when it is `1` on degree ≥ 1 terms, `x^d` appears only for `d ≥ 2`, bare `x`
for `d = 1` and the bare magnitude for `d = 0`; multi-term polynomials are
joined with infixed signs in descending degree, as in the listed examples. -/
theorem claim_C9_rendering :
    polyStr ([] : Poly) = "0"
    ∧ polyStr (from_tuples [((-1 : ℚ), 1)]) = "- x"
    ∧ polyStr (from_tuples [((1 : ℚ), 3), (-2, 2), (1, 1), (-5, 0)]) = "x^3 - 2x^2 + x - 5"
    ∧ polyStr (from_tuples [((2 : ℚ), 2), (1, 0)]) = "2x^2 + 1"
    ∧ (∀ (c : ℚ) (d : ℕ), c ≠ 0 →
        polyStr [(c, d)]
          = (if c < 0 then "- " else "")
            ++ (if d = 0 then ratMagStr |c|
                else if d = 1 then (if |c| = 1 then "x" else ratMagStr |c| ++ "x")
                else (if |c| = 1 then "x^" ++ toString d
                      else ratMagStr |c| ++ "x^" ++ toString d))) := by
  refine ⟨by decide, by decide, by decide, by decide, ?_⟩
  intro c d hc
  show (if (termStr c d).1 = "+" then (termStr c d).2 else "- " ++ (termStr c d).2) = _
  rcases lt_trichotomy c 0 with hneg | hz | hpos
  · have hsign : (termStr c d).1 = "-" := by
      show (if 0 < c then "+" else "-") = "-"
      rw [if_neg (not_lt.mpr (le_of_lt hneg))]
    rw [hsign, if_neg (by decide), if_pos hneg]
    rfl
  · exact absurd hz hc
  · have hsign : (termStr c d).1 = "+" := by
      show (if 0 < c then "+" else "-") = "+"
      rw [if_pos hpos]
    rw [hsign, if_pos rfl, if_neg (not_lt.mpr (le_of_lt hpos))]
    rfl

theorem claim_C9_rendering_witness :
    polyStr [((-3 : ℚ), 2)]
      = (if (-3 : ℚ) < 0 then "- " else "")
        ++ (if (2 : ℕ) = 0 then ratMagStr |(-3 : ℚ)|
            else if (2 : ℕ) = 1 then
              (if |(-3 : ℚ)| = 1 then "x" else ratMagStr |(-3 : ℚ)| ++ "x")
            else (if |(-3 : ℚ)| = 1 then "x^" ++ toString (2 : ℕ)
                  else ratMagStr |(-3 : ℚ)| ++ "x^" ++ toString (2 : ℕ))) :=
  claim_C9_rendering.2.2.2.2 (-3) 2 (by decide)

/-- C10: the `_size` field tracks the number of term nodes: the sized insert
returns the same term list as `_insert_term_invariant` and keeps
`_size = length`, and any polynomial built by inserting pairs into a fresh
instance (which is how every public operation builds its result) ends with
`_size` equal to its node count. -/
theorem claim_C10_size :
    ∀ (c : ℚ) (d : ℕ) (st : Poly × ℤ) (l : List (ℚ × ℕ)),
      (insert_sized c d st).1 = insert_term_invariant c d st.1
      ∧ (st.2 = (st.1.length : ℤ) →
          (insert_sized c d st).2 = ((insert_sized c d st).1.length : ℤ))
      ∧ (build_sized l).1 = from_tuples l
      ∧ (build_sized l).2 = ((build_sized l).1.length : ℤ) := by
  intro c d st l
  exact ⟨insert_sized_fst c d st, insert_sized_len c d st, build_sized_fst l,
    build_sized_inv l⟩

theorem claim_C10_size_witness :
    (build_sized [((3 : ℚ), 2), (2, 1), (-2, 1)]).2
      = ((build_sized [((3 : ℚ), 2), (2, 1), (-2, 1)]).1.length : ℤ)
    ∧ (insert_sized 5 1 ([((3 : ℚ), 2)], 1)).2
      = ((insert_sized 5 1 ([((3 : ℚ), 2)], 1)).1.length : ℤ) := by
  have h := claim_C10_size 5 1 ([((3 : ℚ), 2)], 1) [((3 : ℚ), 2), (2, 1), (-2, 1)]
  exact ⟨h.2.2.2, h.2.1 (by decide)⟩

end

end PolySolver
